import Mathlib

/-!
Verification of `src/Script/RamCalculations.ts`.

The file embeds the two core functions of the module:

* `getRamCalculationForKeys` — the cost aggregator.  The TypeScript function
  reads two module-level externals, the constant table `RamCostConstants` and
  the layered catalog `RamCosts`; both are hoisted into explicit parameters
  (`RamCostConstants` and `Catalog`).  JavaScript numbers are modelled by `ℚ`;
  a catalog slot holds a number, a function of the player state, or anything
  else (`CostValue.malformed`, covering the `typeof cost !== 'number'` branch).
  The player state is an opaque type parameter `P`.

* `checkInfiniteLoop` — the loop-safety analyzer.  The acorn parser is
  external, so the embedding takes the source text (used only for the line
  computation from character offsets) together with the AST the parser would
  produce.  `Node` keeps exactly the structure the walk inspects: while
  statements with their `start` offset, `test` and `body`; literals with their
  `raw` text; await expressions; and every other node kind appears as `seq`
  chains of its children in document order (`leaf` for childless nodes), which
  is what `acorn-walk`'s base walkers traverse depth-first.
-/

namespace RamCalculations

/-- Entry kinds of a RAM usage entry, from the `RamUsageEntry` interface
(`'ns' | 'dom' | 'fn' | 'misc'`). -/
inductive EntryType where
  | ns
  | dom
  | fn
  | misc
  deriving DecidableEq

/-- Embedding of the `RamUsageEntry` interface. -/
structure RamUsageEntry where
  type : EntryType
  name : String
  cost : ℚ
  deriving DecidableEq

/-- Embedding of the `RamCalculation` interface.  The function under study
always populates `entries`, so the field is not optional here. -/
structure RamCalculation where
  cost : ℚ
  entries : List RamUsageEntry
  deriving DecidableEq

/-- The constants the aggregator reads from the imported `RamCostConstants`
object (only the four fields it uses). -/
structure RamCostConstants where
  ScriptBaseRamCost : ℚ
  ScriptHacknetNodesRamCost : ℚ
  ScriptDomRamCost : ℚ
  ScriptCorporationRamCost : ℚ

/-- A value stored in a catalog slot: a plain number, a function of the player
state, or anything else (the code treats such a value as cost `0` via the
`typeof cost !== 'number'` branch). -/
inductive CostValue (P : Type) where
  | num (n : ℚ)
  | fn (f : P → ℚ)
  | malformed

/-- The layered `RamCosts` catalog: `sub ns key` is the slot of `key` in the
namespace object `RamCosts[ns]` (`none` when `key in RamCosts[ns]` is false),
and `dflt key` is the slot of the top-level lookup `RamCosts[key]`. -/
structure Catalog (P : Type) where
  sub : String → String → Option (CostValue P)
  dflt : String → Option (CostValue P)

/-- The fixed namespace priority list from line 55 of the source. -/
def nsPriority : List String :=
  ["bladeburner", "codingcontract", "stanek", "gang", "sleeve", "stock", "ui"]

/-- The four keys handled by the `switch` before any catalog lookup. -/
def specialKeys : List String := ["hacknet", "document", "window", "corporation"]

/-- Embedding of lines 54-65: scan the namespace sub-mappings in priority
order; on the first hit return its slot and the display name
`namespace.key`, otherwise fall back to the top-level slot and the bare key. -/
def lookupCost {P : Type} (cat : Catalog P) (key : String) :
    Option (CostValue P) × String :=
  match nsPriority.findSome? (fun ns => (cat.sub ns key).map (fun v => (ns, v))) with
  | some (ns, v) => (some v, ns ++ "." ++ key)
  | none => (cat.dflt key, key)

/-- Embedding of lines 67-70: a function is applied to the player, a number is
used as is, and anything else (including an absent slot) becomes `0`. -/
def evalCost {P : Type} (player : P) : Option (CostValue P) → ℚ
  | some (CostValue.fn f) => f player
  | some (CostValue.num n) => n
  | _ => 0

/-- Embedding of the body of the `for(const key of keys)` loop for one fresh
key (lines 34-74): the special-key `switch`, then catalog resolution; `none`
when the `cost == 0` check hits `continue` and no entry is pushed. -/
def resolveKey {P : Type} (C : RamCostConstants) (cat : Catalog P) (player : P)
    (key : String) : Option RamUsageEntry :=
  if key = "hacknet" then
    some ⟨EntryType.ns, "hacknet", C.ScriptHacknetNodesRamCost⟩
  else if key = "document" then
    some ⟨EntryType.dom, "document", C.ScriptDomRamCost⟩
  else if key = "window" then
    some ⟨EntryType.dom, "window", C.ScriptDomRamCost⟩
  else if key = "corporation" then
    some ⟨EntryType.ns, "corporation", C.ScriptCorporationRamCost⟩
  else
    let r := lookupCost cat key
    let cost := evalCost player r.1
    if cost = 0 then none else some ⟨EntryType.fn, r.2, cost⟩

/-- Embedding of the key loop (lines 30-75): `seen` is the set of already
processed keys, and the returned list is the sequence of entries pushed after
the base entry, in push order. -/
def processKeys {P : Type} (C : RamCostConstants) (cat : Catalog P) (player : P) :
    List String → List String → List RamUsageEntry
  | [], _ => []
  | k :: ks, seen =>
    if k ∈ seen then processKeys C cat player ks seen
    else
      match resolveKey C cat player k with
      | some e => e :: processKeys C cat player ks (k :: seen)
      | none => processKeys C cat player ks (k :: seen)

/-- Embedding of `getRamCalculationForKeys` (lines 27-81): base entry first,
then the processed keys, then the `cost > 0` filter, then the summation loop
into `totalRam`. -/
def getRamCalculationForKeys {P : Type} (C : RamCostConstants) (cat : Catalog P)
    (player : P) (keys : List String) : RamCalculation :=
  let entries0 : List RamUsageEntry :=
    ⟨EntryType.misc, "baseCost", C.ScriptBaseRamCost⟩ :: processKeys C cat player keys []
  let entries : List RamUsageEntry := entries0.filter (fun e => 0 < e.cost)
  ⟨entries.foldl (fun acc e => acc + e.cost) 0, entries⟩

/-- AST nodes, as described in the file header: `seq`/`leaf` encode the child
lists of every node kind other than while statements, literals and await
expressions, in document order. -/
inductive Node where
  | whileStmt (start : Nat) (test : Node) (body : Node)
  | literal (start : Nat) (raw : String)
  | awaitExpr (start : Nat) (arg : Node)
  | seq (first : Node) (rest : Node)
  | leaf

/-- Embedding of `nodeHasTrueTest` (lines 86-88): the test must be a `Literal`
node whose raw source text is exactly `true`. -/
def nodeHasTrueTest : Node → Bool
  | Node.literal _ raw => raw == "true"
  | _ => false

/-- Embedding of `hasAwait` (lines 90-102): the inner `walk.recursive` visits
the whole subtree and flips the flag on any `AwaitExpression`. -/
def hasAwait : Node → Bool
  | Node.whileStmt _ t b => hasAwait t || hasAwait b
  | Node.literal _ _ => false
  | Node.awaitExpr _ _ => true
  | Node.seq a b => hasAwait a || hasAwait b
  | Node.leaf => false

/-- Embedding of line 111: the 1-based line of a character offset is the
number of newline characters in the source text before the offset, plus one
(`Char.ofNat 10` is the newline character). -/
def lineOf (code : String) (start : Nat) : Int :=
  ((code.data.take start).countP (fun c => c = Char.ofNat 10) : Int) + 1

/-- Embedding of the outer `walk.recursive` of lines 105-117, threading the
mutable `missingAwaitLine` as an accumulator.  On a while statement the
visitor runs: a literal-`true` test with no await in the whole loop node
overwrites the accumulator with the loop's line and does not descend;
otherwise only the loop body is walked (`walkDeeper((node as any).body, st)`).
Every other node kind is traversed by the base walker, i.e. child by child in
document order. -/
def walkNode (code : String) : Node → Int → Int
  | Node.whileStmt s t b, acc =>
    if nodeHasTrueTest t && !hasAwait (Node.whileStmt s t b) then lineOf code s
    else walkNode code b acc
  | Node.literal _ _, acc => acc
  | Node.awaitExpr _ a, acc => walkNode code a acc
  | Node.seq a b, acc => walkNode code b (walkNode code a acc)
  | Node.leaf, acc => acc

/-- Embedding of `checkInfiniteLoop` (lines 83-120) applied to a source text
and the AST the (external) parser produces for it: the accumulator starts at
the sentinel `-1`. -/
def checkInfiniteLoop (code : String) (ast : Node) : Int :=
  walkNode code ast (-1)

/-- Start offsets of the loops the walk condemns, in the order the walk visits
them: a condemned while contributes itself and hides its body, a safe while
exposes only its body, all other nodes expose their children in order. -/
def condemnedStarts : Node → List Nat
  | Node.whileStmt s t b =>
    if nodeHasTrueTest t && !hasAwait (Node.whileStmt s t b) then [s]
    else condemnedStarts b
  | Node.literal _ _ => []
  | Node.awaitExpr _ a => condemnedStarts a
  | Node.seq a b => condemnedStarts a ++ condemnedStarts b
  | Node.leaf => []

/-- Concrete source `while(true){}` (braces escaped). -/
def code1 : String := "while(true)\x7b\x7d"

/-- Acorn AST of `code1`: a program whose sole statement is the while loop at
offset 0, test literal at offset 6, empty block body. -/
def ast1 : Node := Node.seq (Node.whileStmt 0 (Node.literal 6 "true") Node.leaf) Node.leaf

/-- Concrete source `while(true){ await f(); }`. -/
def codeAwait : String := "while(true)\x7b await f(); \x7d"

/-- Acorn AST of `codeAwait`: the loop body contains an expression statement
holding an await expression (offset 13) over the call `f()` (offset 19). -/
def astAwait : Node :=
  Node.seq
    (Node.whileStmt 0 (Node.literal 6 "true")
      (Node.seq (Node.awaitExpr 13 (Node.seq Node.leaf Node.leaf)) Node.leaf))
    Node.leaf

/-- Concrete source `while(false){}`. -/
def codeFalse : String := "while(false)\x7b\x7d"

/-- Acorn AST of `codeFalse`: the test literal has raw text `false`. -/
def astFalse : Node :=
  Node.seq (Node.whileStmt 0 (Node.literal 6 "false") Node.leaf) Node.leaf

/-- Concrete source with two sibling unsafe loops on lines 1 and 2. -/
def twoLoopCode : String := "while(true)\x7b\x7d\nwhile(true)\x7b\x7d"

/-- Acorn AST of `twoLoopCode`: the first loop starts at offset 0 (line 1),
the second at offset 14 (line 2, after the newline at offset 13). -/
def twoLoopAst : Node :=
  Node.seq (Node.whileStmt 0 (Node.literal 6 "true") Node.leaf)
    (Node.seq (Node.whileStmt 14 (Node.literal 20 "true") Node.leaf) Node.leaf)

/-- Test literal `true` at offset 6, shared by the single-line fixtures. -/
def tTrue : Node := Node.literal 6 "true"

/-- Concrete source `while(true){ while(true){} await f(); }`: a suspending
outer loop with an unsafe inner loop. -/
def nestedCode : String := "while(true)\x7b while(true)\x7b\x7d await f(); \x7d"

/-- Body of the outer loop of `nestedCode`: the inner while starts at offset
13 with its test literal at offset 19, followed by the await at offset 27. -/
def nestedBody : Node :=
  Node.seq (Node.whileStmt 13 (Node.literal 19 "true") Node.leaf)
    (Node.seq (Node.awaitExpr 27 Node.leaf) Node.leaf)

/-- Concrete constants used by the witnesses. -/
def C0 : RamCostConstants := ⟨2, 4, 25, 1024⟩

/-- An empty catalog over the trivial player state. -/
def cat0 : Catalog Unit := ⟨fun _ _ => none, fun _ => none⟩

/-- A catalog whose key `foo` sits in both the `codingcontract` and the
`stock` sub-mappings, with different costs. -/
def cat1 : Catalog Unit :=
  ⟨fun ns k =>
      if ns = "codingcontract" ∧ k = "foo" then some (CostValue.num 7)
      else if ns = "stock" ∧ k = "foo" then some (CostValue.num 9)
      else none,
    fun _ => none⟩

/-- A catalog whose default mapping prices the key `bad` with a dynamic cost
function that returns `-3` for every player state. -/
def catNeg : Catalog Unit :=
  ⟨fun _ _ => none,
    fun k => if k = "bad" then some (CostValue.fn (fun _ => -3)) else none⟩

/-- Key present in two sub-mappings of `cat1`. -/
def fooKey : String := "foo"

/-- Key priced negatively by `catNeg`. -/
def badKey : String := "bad"

/-- Key absent from every mapping of `cat0`. -/
def unknownKey : String := "nosuch"

/-- Folding a function that ignores the accumulator returns the image of the
last list element, i.e. each condemned loop overwrites the previous report. -/
theorem foldl_overwrite_last {β : Type} (g : Nat → β) (s : Nat) :
    ∀ (l : List Nat) (acc : β), l.getLast? = some s →
      l.foldl (fun _ x => g x) acc = g s := by
  intro l
  induction l with
  | nil => intro acc h; simp at h
  | cons a l ih =>
    intro acc h
    cases l with
    | nil =>
      simp at h
      subst h
      rfl
    | cons b l2 =>
      rw [List.getLast?_cons_cons] at h
      rw [List.foldl_cons]
      exact ih (g a) h

/-- Characterization of the walk: its result is the fold of the condemned-loop
offsets over the incoming accumulator, each offset overwriting the report. -/
theorem walkNode_condemned (code : String) :
    ∀ (n : Node) (acc : Int),
      walkNode code n acc = (condemnedStarts n).foldl (fun _ x => lineOf code x) acc := by
  intro n
  induction n with
  | whileStmt s t b iht ihb =>
    intro acc
    by_cases h : (nodeHasTrueTest t && !hasAwait (Node.whileStmt s t b)) = true
    · simp [walkNode, condemnedStarts, h]
    · rw [Bool.not_eq_true] at h
      simp [walkNode, condemnedStarts, h, ihb]
  | literal s raw => intro acc; rfl
  | awaitExpr s a ih =>
    intro acc
    simpa [walkNode, condemnedStarts] using ih acc
  | seq a b iha ihb =>
    intro acc
    simp [walkNode, condemnedStarts, iha, ihb, List.foldl_append]
  | leaf => intro acc; rfl

/-- C1 counterexample: `twoLoopCode` contains two unsafe loops reachable by
the walk, at offsets 0 (line 1) and 14 (line 2); `checkInfiniteLoop` returns
line 2, the last in traversal order, not line 1, the first. -/
theorem checkInfiniteLoop_not_first :
    condemnedStarts twoLoopAst = [0, 14] ∧
    lineOf twoLoopCode 0 = 1 ∧
    lineOf twoLoopCode 14 = 2 ∧
    checkInfiniteLoop twoLoopCode twoLoopAst = 2 := by
  refine ⟨by decide, by decide, by decide, by decide⟩

/-- C1 (amended): for every AST with at least one unsafe loop reachable by the
walk — in particular with two or more — `checkInfiniteLoop` reports the source
line of the LAST such loop in the walk's depth-first traversal order, because
each condemned loop overwrites the recorded line. -/
theorem checkInfiniteLoop_reports_last (code : String) (ast : Node) (s : Nat)
    (h : (condemnedStarts ast).getLast? = some s) :
    checkInfiniteLoop code ast = lineOf code s := by
  rw [checkInfiniteLoop, walkNode_condemned, foldl_overwrite_last (lineOf code) s _ _ h]

/-- C1 witness: on the two-loop fixture the last condemned loop starts at
offset 14 and the reported line is its line. -/
theorem checkInfiniteLoop_reports_last_witness :
    (condemnedStarts twoLoopAst).getLast? = some 14 ∧
    checkInfiniteLoop twoLoopCode twoLoopAst = lineOf twoLoopCode 14 :=
  ⟨by decide, checkInfiniteLoop_reports_last twoLoopCode twoLoopAst 14 (by decide)⟩

/-- C2: a condemned loop (literal-`true` test, no await anywhere in the loop
node) reports its own line without descending into its body — so the walk's
condemned-loop list for it is just the loop itself and a nested unsafe loop is
never reported in the same pass — whereas a literal-`true` loop that does
contain an await is not flagged, its body is walked normally, its
condemned-loop list is exactly that of its body, and the loop reported for it
is the last condemned loop of its body. -/
theorem checkInfiniteLoop_descent (code : String) (s : Nat) (t b : Node) (acc : Int) :
    (nodeHasTrueTest t = true → hasAwait (Node.whileStmt s t b) = false →
      walkNode code (Node.whileStmt s t b) acc = lineOf code s ∧
      condemnedStarts (Node.whileStmt s t b) = [s]) ∧
    (nodeHasTrueTest t = true → hasAwait (Node.whileStmt s t b) = true →
      walkNode code (Node.whileStmt s t b) acc = walkNode code b acc ∧
      condemnedStarts (Node.whileStmt s t b) = condemnedStarts b ∧
      ∀ s2 : Nat, (condemnedStarts b).getLast? = some s2 →
        walkNode code (Node.whileStmt s t b) acc = lineOf code s2) := by
  constructor
  · intro h1 h2
    have hc : (nodeHasTrueTest t && !hasAwait (Node.whileStmt s t b)) = true := by
      simp [h1, h2]
    constructor
    · simp [walkNode, hc]
    · simp [condemnedStarts, hc]
  · intro h1 h2
    have hc : (nodeHasTrueTest t && !hasAwait (Node.whileStmt s t b)) = false := by
      simp [h2]
    have hw : walkNode code (Node.whileStmt s t b) acc = walkNode code b acc := by
      simp [walkNode, hc]
    refine ⟨hw, by simp [condemnedStarts, hc], ?_⟩
    intro s2 hs2
    rw [hw, walkNode_condemned, foldl_overwrite_last (lineOf code) s2 _ _ hs2]

/-- C2 witness: the condemned single loop of `code1` reports its own line and
is the only condemned loop; the suspending outer loop of `nestedCode` defers
to its body, whose condemned inner loop (offset 13) is still reported. -/
theorem checkInfiniteLoop_descent_witness :
    (walkNode code1 (Node.whileStmt 0 tTrue Node.leaf) (-1) = lineOf code1 0 ∧
      condemnedStarts (Node.whileStmt 0 tTrue Node.leaf) = [0]) ∧
    (walkNode nestedCode (Node.whileStmt 0 tTrue nestedBody) (-1) =
        walkNode nestedCode nestedBody (-1) ∧
      condemnedStarts (Node.whileStmt 0 tTrue nestedBody) = condemnedStarts nestedBody) :=
  ⟨(checkInfiniteLoop_descent code1 0 tTrue Node.leaf (-1)).1 (by decide) (by decide),
    ⟨((checkInfiniteLoop_descent nestedCode 0 tTrue nestedBody (-1)).2
        (by decide) (by decide)).1,
      ((checkInfiniteLoop_descent nestedCode 0 tTrue nestedBody (-1)).2
        (by decide) (by decide)).2.1⟩⟩

/-- C3: `while(true){}` reports line 1; `while(true){ await f(); }` and
`while(false){}` both report the no-issue sentinel `-1`. -/
theorem checkInfiniteLoop_examples :
    checkInfiniteLoop code1 ast1 = 1 ∧
    checkInfiniteLoop codeAwait astAwait = -1 ∧
    checkInfiniteLoop codeFalse astFalse = -1 := by
  refine ⟨by decide, by decide, by decide⟩

/-- Scanning lemma: if every list element maps to `none`, the scan finds
nothing. -/
theorem findSome_none {α β : Type} (f : α → Option β) :
    ∀ l : List α, (∀ x ∈ l, f x = none) → l.findSome? f = none := by
  intro l
  induction l with
  | nil => intro _; rfl
  | cons a l ih =>
    intro h
    have h0 : f a = none := h a (by simp)
    have hrest : l.findSome? f = none := ih (fun x hx => h x (List.mem_cons_of_mem a hx))
    simp [List.findSome?_cons, h0, hrest]

/-- Scanning lemma: the scan returns the image of the first element whose
image is `some`, when all earlier elements map to `none`. -/
theorem findSome_first {α β : Type} (f : α → Option β) :
    ∀ (l : List α) (i : Nat) (hi : i < l.length) (b : β),
      (∀ (j : Nat) (hj : j < l.length), j < i → f (l.get ⟨j, hj⟩) = none) →
      f (l.get ⟨i, hi⟩) = some b → l.findSome? f = some b := by
  intro l
  induction l with
  | nil => intro i hi; simp at hi
  | cons a l ih =>
    intro i hi b hnone hsome
    cases i with
    | zero =>
      have ha : f a = some b := hsome
      simp [List.findSome?_cons, ha]
    | succ i2 =>
      have h0 : f a = none := hnone 0 (by simp) (Nat.succ_pos i2)
      have hrest : l.findSome? f = some b :=
        ih i2 (Nat.lt_of_succ_lt_succ hi) b
          (fun j hj hlt => hnone (j + 1) (Nat.succ_lt_succ hj) (Nat.succ_lt_succ hlt))
          hsome
      simp [List.findSome?_cons, h0, hrest]

/-- Resolution lemma: when a namespace at position `i` of the priority list
contains the key and no earlier one does, the lookup returns that namespace's
slot and the display name `namespace.key`. -/
theorem lookupCost_of_first {P : Type} (cat : Catalog P) (key : String) (i : Nat)
    (hi : i < nsPriority.length) (v : CostValue P)
    (hv : cat.sub (nsPriority.get ⟨i, hi⟩) key = some v)
    (hfirst : ∀ (j : Nat) (hj : j < nsPriority.length), j < i →
      cat.sub (nsPriority.get ⟨j, hj⟩) key = none) :
    lookupCost cat key = (some v, nsPriority.get ⟨i, hi⟩ ++ "." ++ key) := by
  have hfind :
      nsPriority.findSome? (fun ns => (cat.sub ns key).map (fun w => (ns, w))) =
        some (nsPriority.get ⟨i, hi⟩, v) :=
    findSome_first _ nsPriority i hi _
      (fun j hj hlt => by rw [hfirst j hj hlt]; rfl)
      (by rw [hv]; rfl)
  simp [lookupCost, hfind]

/-- Resolution lemma: when no namespace of the priority list contains the key,
the lookup falls back to the default mapping and the bare key. -/
theorem lookupCost_dflt {P : Type} (cat : Catalog P) (key : String)
    (h : ∀ ns ∈ nsPriority, cat.sub ns key = none) :
    lookupCost cat key = (cat.dflt key, key) := by
  have hfind :
      nsPriority.findSome? (fun ns => (cat.sub ns key).map (fun w => (ns, w))) = none :=
    findSome_none _ nsPriority (fun ns hns => by rw [h ns hns]; rfl)
  simp [lookupCost, hfind]

/-- Resolution lemma: for a key that is not one of the four special keys, the
per-key step is the catalog path: evaluate the looked-up slot and drop the
entry exactly when the evaluated cost is `0`. -/
theorem resolveKey_not_special {P : Type} (C : RamCostConstants) (cat : Catalog P)
    (player : P) (key : String) (hkey : key ∉ specialKeys)
    (c : Option (CostValue P)) (nm : String) (hlook : lookupCost cat key = (c, nm)) :
    resolveKey C cat player key =
      if evalCost player c = 0 then none
      else some ⟨EntryType.fn, nm, evalCost player c⟩ := by
  simp only [specialKeys, List.mem_cons, List.not_mem_nil, or_false, not_or] at hkey
  obtain ⟨h1, h2, h3, h4⟩ := hkey
  simp [resolveKey, h1, h2, h3, h4, hlook]

/-- Loop lemma: processing a single fresh key produces the optional entry of
its resolution step. -/
theorem processKeys_single {P : Type} (C : RamCostConstants) (cat : Catalog P)
    (player : P) (key : String) :
    processKeys C cat player [key] [] = (resolveKey C cat player key).toList := by
  cases h : resolveKey C cat player key <;> simp [processKeys, h]

/-- Loop lemma: a key whose resolution step yields no entry leaves the whole
result unchanged. -/
theorem getRam_drop {P : Type} (C : RamCostConstants) (cat : Catalog P) (player : P)
    (key : String) (h : resolveKey C cat player key = none) :
    getRamCalculationForKeys C cat player [key] = getRamCalculationForKeys C cat player [] := by
  simp [getRamCalculationForKeys, processKeys, h]

/-- Summation lemma: the `totalRam` loop is the sum of the costs added to the
initial accumulator. -/
theorem foldl_add_cost :
    ∀ (l : List RamUsageEntry) (x : ℚ),
      l.foldl (fun acc e => acc + e.cost) x = x + (l.map RamUsageEntry.cost).sum := by
  intro l
  induction l with
  | nil => intro x; simp
  | cons a l ih => intro x; simp [ih, add_assoc]

/-- Filter lemma: every entry of a returned result survived the `cost > 0`
filter. -/
theorem mem_entries_pos {P : Type} (C : RamCostConstants) (cat : Catalog P) (player : P)
    (keys : List String) (e : RamUsageEntry)
    (he : e ∈ (getRamCalculationForKeys C cat player keys).entries) : 0 < e.cost := by
  simp only [getRamCalculationForKeys, List.mem_filter, decide_eq_true_eq] at he
  exact he.2

/-- C4: for a non-special key, if the namespace at position `i` of the fixed
priority list `bladeburner, codingcontract, stanek, gang, sleeve, stock, ui`
contains the key and no earlier namespace does, resolution uses that
namespace's slot and the display name `namespace.key` — so any entry the
aggregator returns for the key carries that display name — and the default
mapping is consulted exactly when no namespace contains the key. -/
theorem getRamCalculationForKeys_priority {P : Type} (C : RamCostConstants)
    (cat : Catalog P) (player : P) (key : String) (hkey : key ∉ specialKeys) :
    (∀ (i : Nat) (hi : i < nsPriority.length) (v : CostValue P),
      cat.sub (nsPriority.get ⟨i, hi⟩) key = some v →
      (∀ (j : Nat) (hj : j < nsPriority.length), j < i →
        cat.sub (nsPriority.get ⟨j, hj⟩) key = none) →
      lookupCost cat key = (some v, nsPriority.get ⟨i, hi⟩ ++ "." ++ key) ∧
      ∀ e ∈ (getRamCalculationForKeys C cat player [key]).entries,
        e.name = "baseCost" ∨ e.name = nsPriority.get ⟨i, hi⟩ ++ "." ++ key) ∧
    ((∀ ns ∈ nsPriority, cat.sub ns key = none) →
      lookupCost cat key = (cat.dflt key, key)) := by
  constructor
  · intro i hi v hv hfirst
    have hlook := lookupCost_of_first cat key i hi v hv hfirst
    refine ⟨hlook, ?_⟩
    intro e he
    have hres := resolveKey_not_special C cat player key hkey _ _ hlook
    simp only [getRamCalculationForKeys, processKeys_single, hres] at he
    by_cases hz : evalCost player (some v) = 0
    · rw [if_pos hz] at he
      simp only [Option.toList, List.mem_filter, List.mem_singleton] at he
      left
      rw [he.1]
    · rw [if_neg hz] at he
      simp only [Option.toList, List.mem_filter, List.mem_cons,
        List.mem_singleton, List.not_mem_nil, or_false] at he
      rcases he.1 with hbase | hns
      · left; rw [hbase]
      · right; rw [hns]
  · intro hsub
    exact lookupCost_dflt cat key hsub

/-- C4 witness: in `cat1` the key `foo` sits in both `codingcontract`
(position 1) and `stock` (position 5); resolution picks `codingcontract` and
the display name `codingcontract.foo`. -/
theorem getRamCalculationForKeys_priority_witness :
    lookupCost cat1 fooKey = (some (CostValue.num 7), "codingcontract" ++ "." ++ fooKey) :=
  ((getRamCalculationForKeys_priority C0 cat1 () fooKey (by decide)).1 1 (by decide)
    (CostValue.num 7) rfl
    (fun j hj hlt => by
      have hj0 : j = 0 := by omega
      subst hj0
      rfl)).1

/-- C5: duplicate occurrences of a name collapse — aggregating `[n, n]` gives
exactly the result of aggregating `[n]`, entries and total alike. -/
theorem getRamCalculationForKeys_duplicate {P : Type} (C : RamCostConstants)
    (cat : Catalog P) (player : P) (n : String) :
    getRamCalculationForKeys C cat player [n, n] = getRamCalculationForKeys C cat player [n] := by
  have h2 : processKeys C cat player [n, n] [] = processKeys C cat player [n] [] := by
    cases h : resolveKey C cat player n <;> simp [processKeys, h]
  simp [getRamCalculationForKeys, h2]

/-- C6: the `cost` field of every returned result equals the sum of the costs
of its `entries`. -/
theorem getRamCalculationForKeys_total_eq_sum {P : Type} (C : RamCostConstants)
    (cat : Catalog P) (player : P) (keys : List String) :
    (getRamCalculationForKeys C cat player keys).cost =
      ((getRamCalculationForKeys C cat player keys).entries.map RamUsageEntry.cost).sum := by
  simp [getRamCalculationForKeys, foldl_add_cost]

/-- C7: every entry of a returned result has strictly positive cost. -/
theorem getRamCalculationForKeys_entries_pos {P : Type} (C : RamCostConstants)
    (cat : Catalog P) (player : P) (keys : List String) :
    ∀ e ∈ (getRamCalculationForKeys C cat player keys).entries, 0 < e.cost :=
  fun e he => mem_entries_pos C cat player keys e he

/-- C7 witness: the base entry of the empty aggregation over `C0` is in the
result and its cost is positive. -/
theorem getRamCalculationForKeys_entries_pos_witness :
    (0 : ℚ) < (⟨EntryType.misc, "baseCost", (2 : ℚ)⟩ : RamUsageEntry).cost :=
  getRamCalculationForKeys_entries_pos C0 cat0 () []
    ⟨EntryType.misc, "baseCost", (2 : ℚ)⟩ (by decide)

/-- C8: the aggregator cannot fail on a non-special key: a key absent from
every namespace sub-mapping and from the default mapping, one whose default
slot is malformed, and one whose first namespace hit is malformed all
contribute nothing — the result is the same as aggregating no keys at all. -/
theorem getRamCalculationForKeys_lenient {P : Type} (C : RamCostConstants)
    (cat : Catalog P) (player : P) (key : String) (hkey : key ∉ specialKeys) :
    ((∀ ns ∈ nsPriority, cat.sub ns key = none) → cat.dflt key = none →
      getRamCalculationForKeys C cat player [key] =
        getRamCalculationForKeys C cat player []) ∧
    ((∀ ns ∈ nsPriority, cat.sub ns key = none) →
      cat.dflt key = some CostValue.malformed →
      getRamCalculationForKeys C cat player [key] =
        getRamCalculationForKeys C cat player []) ∧
    (∀ (i : Nat) (hi : i < nsPriority.length),
      cat.sub (nsPriority.get ⟨i, hi⟩) key = some CostValue.malformed →
      (∀ (j : Nat) (hj : j < nsPriority.length), j < i →
        cat.sub (nsPriority.get ⟨j, hj⟩) key = none) →
      getRamCalculationForKeys C cat player [key] =
        getRamCalculationForKeys C cat player []) := by
  refine ⟨?_, ?_, ?_⟩
  · intro hsub hd
    have hlook := lookupCost_dflt cat key hsub
    rw [hd] at hlook
    apply getRam_drop
    rw [resolveKey_not_special C cat player key hkey _ _ hlook]
    simp [evalCost]
  · intro hsub hd
    have hlook := lookupCost_dflt cat key hsub
    rw [hd] at hlook
    apply getRam_drop
    rw [resolveKey_not_special C cat player key hkey _ _ hlook]
    simp [evalCost]
  · intro i hi hv hfirst
    have hlook := lookupCost_of_first cat key i hi CostValue.malformed hv hfirst
    apply getRam_drop
    rw [resolveKey_not_special C cat player key hkey _ _ hlook]
    simp [evalCost]

/-- C8 witness: the key `nosuch` is absent from every mapping of the empty
catalog and leaves the result untouched. -/
theorem getRamCalculationForKeys_lenient_witness :
    getRamCalculationForKeys C0 cat0 () [unknownKey] =
      getRamCalculationForKeys C0 cat0 () [] :=
  (getRamCalculationForKeys_lenient C0 cat0 () unknownKey (by decide)).1
    (fun ns hns => rfl) rfl

/-- C9: `corporation` is a special key handled before any catalog content:
for every player state and catalog it yields, after the base entry, exactly
one entry of kind `ns` named `corporation` with the fixed corporation cost
(whenever the two fixed constants are positive, as they are in the game). -/
theorem getRamCalculationForKeys_corporation {P : Type} (C : RamCostConstants)
    (cat : Catalog P) (player : P) (hb : 0 < C.ScriptBaseRamCost)
    (hc : 0 < C.ScriptCorporationRamCost) :
    getRamCalculationForKeys C cat player ["corporation"] =
      ⟨C.ScriptBaseRamCost + C.ScriptCorporationRamCost,
        [⟨EntryType.misc, "baseCost", C.ScriptBaseRamCost⟩,
          ⟨EntryType.ns, "corporation", C.ScriptCorporationRamCost⟩]⟩ := by
  have hres : resolveKey C cat player "corporation" =
      some ⟨EntryType.ns, "corporation", C.ScriptCorporationRamCost⟩ := by
    simp [resolveKey]
  simp [getRamCalculationForKeys, processKeys_single, hres, Option.toList,
    List.filter_cons, decide_eq_true hb, decide_eq_true hc, zero_add]

/-- C9 witness: over the empty catalog and the concrete constants `C0`, the
corporation aggregation is the base entry plus the fixed corporation entry. -/
theorem getRamCalculationForKeys_corporation_witness :
    getRamCalculationForKeys C0 cat0 () ["corporation"] =
      ⟨C0.ScriptBaseRamCost + C0.ScriptCorporationRamCost,
        [⟨EntryType.misc, "baseCost", C0.ScriptBaseRamCost⟩,
          ⟨EntryType.ns, "corporation", C0.ScriptCorporationRamCost⟩]⟩ :=
  getRamCalculationForKeys_corporation C0 cat0 () (by decide) (by decide)

/-- C10: a key resolved to a dynamic cost function returning zero or a
negative number for the given player contributes nothing: the result equals
the result of aggregating no keys, and every surviving entry still has
strictly positive cost. -/
theorem getRamCalculationForKeys_dynamic_nonpos {P : Type} (C : RamCostConstants)
    (cat : Catalog P) (player : P) (key : String) (f : P → ℚ) (nm : String)
    (hkey : key ∉ specialKeys) (hlook : lookupCost cat key = (some (CostValue.fn f), nm))
    (hf : f player ≤ 0) :
    getRamCalculationForKeys C cat player [key] = getRamCalculationForKeys C cat player [] ∧
    ∀ e ∈ (getRamCalculationForKeys C cat player [key]).entries, 0 < e.cost := by
  have hres := resolveKey_not_special C cat player key hkey _ _ hlook
  constructor
  · by_cases hz : f player = 0
    · apply getRam_drop
      rw [hres]
      simp [evalCost, hz]
    · have hres2 : resolveKey C cat player key = some ⟨EntryType.fn, nm, f player⟩ := by
        rw [hres]
        simp [evalCost, hz]
      simp [getRamCalculationForKeys, processKeys_single, processKeys, hres2,
        Option.toList, List.filter_cons, decide_eq_false (not_lt.mpr hf)]
  · intro e he
    exact mem_entries_pos C cat player [key] e he

/-- C10 witness: the key `bad` of `catNeg` is priced by a dynamic function
returning `-3`; aggregating it changes nothing. -/
theorem getRamCalculationForKeys_dynamic_nonpos_witness :
    getRamCalculationForKeys C0 catNeg () [badKey] =
      getRamCalculationForKeys C0 catNeg () [] :=
  (getRamCalculationForKeys_dynamic_nonpos C0 catNeg () badKey (fun _ => -3) badKey
    (by decide) rfl (by decide)).1

end RamCalculations
